import Mathlib

/-!
Verification of the single-elimination bracket engine of the tournament bot
(`bot.py`): bracket generation (`generate_bracket`, lines 1047-1068), winner
propagation (`propagate_winner`, lines 1070-1116), the winner-selection
callback (`winner_callback_handler`, lines 1000-1041), champion declaration
(`declare_winner`, lines 1118-1131) and the admin-side generation gate
(lines 910-918).

The `bracket_matches` table is modelled, for a fixed tournament, as a list
of `BMatch` rows (every query in the source filters on one
`tournament_id`).  `UPDATE ... WHERE id = ?` is an elementwise map over the
list, `SELECT ... ORDER BY round_index, match_index` is a stable insertion
sort on the (roundIndex, matchIndex) key, and the teams table is the list
of existing team ids.  Nullable integer columns are `Option Nat`; Python
truthiness of such a value (`if teamA_id:`) is `truthy`, false both for
NULL and for the integer 0.
-/

/-- One row of the `bracket_matches` table (for a fixed tournament). -/
structure BMatch where
  id : Nat
  roundIndex : Nat
  matchIndex : Nat
  teamA : Option Nat
  teamB : Option Nat
  winner : Option Nat
deriving DecidableEq, Repr

/-- Python truthiness of a nullable integer column: NULL and 0 are falsy. -/
def truthy : Option Nat → Bool
  | none => false
  | some v => v != 0

/-- The `ORDER BY round_index, match_index` comparison used by the
propagation query. -/
def matchLE (a b : BMatch) : Prop :=
  a.roundIndex < b.roundIndex ∨ (a.roundIndex = b.roundIndex ∧ a.matchIndex ≤ b.matchIndex)

instance : DecidableRel matchLE := fun a b => by
  unfold matchLE
  infer_instance

/-- The sorted match list returned by the propagation query. -/
def sortMatches (s : List BMatch) : List BMatch := List.insertionSort matchLE s

/-- Key of a row in the in-memory `rounds` dictionary of `propagate_winner`. -/
def bkey (m : BMatch) : Nat × Nat := (m.roundIndex, m.matchIndex)

/-- Inserting one row into the dictionary: an entry with the same
(round, match) key is overwritten in place, otherwise the row is appended. -/
def dictInsert (acc : List BMatch) (m : BMatch) : List BMatch :=
  if acc.any (fun x => decide (bkey x = bkey m)) then
    acc.map (fun x => if bkey x = bkey m then m else x)
  else acc ++ [m]

/-- The `rounds` dictionary built at `bot.py` lines 1083-1090, flattened to
a list with one entry per (round, match) key: keys in first-insertion
order, each holding the last row inserted for that key. -/
def dictOf (ms : List BMatch) : List BMatch := ms.foldl dictInsert []

/-- `max(rounds.keys())`: the largest round index occurring in the list. -/
def maxRoundOf (ms : List BMatch) : Nat :=
  (ms.map (fun m => m.roundIndex)).foldl max 0

/-- One `UPDATE bracket_matches SET teamA_id/teamB_id = ? WHERE id = ?`
issued by the propagation loop: `pos = 0` writes `teamA`, any other value
writes `teamB` (`pos` is `match_index % 2`). -/
structure SlotWrite where
  dest : Nat
  pos : Nat
  team : Nat
deriving DecidableEq, Repr

/-- Effect of one slot write on one row. -/
def writeRow (w : SlotWrite) (x : BMatch) : BMatch :=
  if x.id = w.dest then
    if w.pos = 0 then { x with teamA := some w.team } else { x with teamB := some w.team }
  else x

/-- Effect of one slot write on the whole table. -/
def applyWrite (st : List BMatch) (w : SlotWrite) : List BMatch := st.map (writeRow w)

/-- Sequential effect of a list of slot writes on one row. -/
def applyRow (ws : List SlotWrite) (x : BMatch) : BMatch :=
  ws.foldl (fun x w => writeRow w x) x

/-- Sequential effect of a list of slot writes on the table. -/
def applyWrites (ws : List SlotWrite) (st : List BMatch) : List BMatch :=
  ws.foldl applyWrite st

/-- The slot writes issued while scanning round `r` of the dictionary `d`
(`bot.py` lines 1099-1111): every match of round `r` with a truthy winner
whose destination — round `r + 1`, match index `matchIndex / 2` — exists in
the dictionary produces one write of that winner into the destination's
A slot when `matchIndex` is even, B slot when odd. -/
def roundWrites (d : List BMatch) (r : Nat) : List SlotWrite :=
  (d.filter (fun m => decide (m.roundIndex = r))).filterMap (fun m =>
    if truthy m.winner then
      match d.find? (fun x => decide (x.roundIndex = r + 1 ∧ x.matchIndex = m.matchIndex / 2)) with
      | some nm => some ⟨nm.id, m.matchIndex % 2, m.winner.getD 0⟩
      | none => none
    else none)

/-- Whether the dictionary has an entry for round `r` (`r in rounds`). -/
def hasRound (d : List BMatch) (r : Nat) : Bool :=
  d.any (fun x => decide (x.roundIndex = r))

/-- The writes issued by `for round_idx in range(n)` of the sweep, with a
flag recording whether the sweep aborted with a `KeyError`: the body skips
round `r` when round `r + 1` has no dictionary entry, and raises — keeping
the writes issued so far — when round `r + 1` is a key but round `r` itself
is not (`rounds[round_idx]` at line 1099). -/
def sweep (d : List BMatch) : Nat → List SlotWrite × Bool
  | 0 => ([], false)
  | n + 1 =>
    match sweep d n with
    | (ws, true) => (ws, true)
    | (ws, false) =>
      if hasRound d (n + 1) then
        if hasRound d n then (ws ++ roundWrites d n, false) else (ws, true)
      else (ws, false)

/-- The final-round champion check of `propagate_winner` (lines 1113-1116):
the team id handed to `declare_winner` when the raw query result holds
exactly one match of the maximal round and that match's winner is truthy. -/
def finalChampion (ms : List BMatch) (maxR : Nat) : Option Nat :=
  match ms.filter (fun m => decide (m.roundIndex = maxR)) with
  | [f] => if truthy f.winner then f.winner else none
  | _ => none

/-- Result of one `propagate_winner` call: the table after its updates, the
team id passed to `declare_winner` (if any), and whether the sweep raised. -/
structure PropResult where
  state : List BMatch
  champion : Option Nat
  raised : Bool
deriving DecidableEq, Repr

/-- `propagate_winner` (`bot.py` lines 1070-1116) on the match table `s` of
one tournament: query the matches sorted by (round, match) and return
unchanged if there are none; build the `rounds` dictionary; sweep rounds
`0 .. max_round - 1`, issuing the slot updates against the table; finally —
when the sweep did not raise — declare a champion per `finalChampion`.
The sweep reads only the dictionary snapshot built before any update, so
collecting its writes first and applying them to the table afterwards is
exactly the source's behaviour. -/
def propagate_winner (s : List BMatch) : PropResult :=
  let ms := sortMatches s
  if ms.isEmpty then ⟨s, none, false⟩
  else
    let d := dictOf ms
    let wsErr := sweep d (maxRoundOf d)
    ⟨applyWrites wsErr.1 s,
     if wsErr.2 then none else finalChampion ms (maxRoundOf d),
     wsErr.2⟩

/-- The round-0 rows inserted by the generation loop (`bot.py` lines
1060-1068): teams are consumed two at a time, an unpaired last team gets
`teamB = NULL`, and `k` numbers both the fresh row ids and the match
indices. -/
def genMatches (k : Nat) : List Nat → List BMatch
  | a :: b :: rest => ⟨k, 0, k, some a, some b, none⟩ :: genMatches (k + 1) rest
  | [a] => [⟨k, 0, k, some a, none, none⟩]
  | [] => []

/-- `generate_bracket` (`bot.py` lines 1047-1068): clear the tournament's
matches and insert one round-0 row per consecutive pair of the already
shuffled team list.  Row ids are modelled as `0, 1, ...` (a fresh
autoincrement run on the emptied table); the random shuffle is modelled by
quantifying over the input order. -/
def generate_bracket (teams : List Nat) : List BMatch := genMatches 0 teams

/-- Result of one winner-selection callback: the table afterwards, the
champion declared by the triggered propagation (if any), whether the
propagation raised, and the error message shown instead of recording. -/
structure CbResult where
  state : List BMatch
  champion : Option Nat
  raised : Bool
  error : Option String
deriving DecidableEq, Repr

/-- Shared tail of the winner callback (`bot.py` lines 1028-1041): the team
existence lookup, the `UPDATE ... SET winner_team_id` write, and the
propagation call. -/
def recordAndPropagate (s : List BMatch) (teams : List Nat) (mid w : Nat) : CbResult :=
  if w ∈ teams then
    let st := s.map (fun x => if x.id = mid then { x with winner := some w } else x)
    let r := propagate_winner st
    ⟨r.state, r.champion, r.raised, none⟩
  else ⟨s, none, false, some "Team not found"⟩

/-- `winner_callback_handler` (`bot.py` lines 1000-1041) for callback data
`win_{mid}_{side}` against table `s` and team-table ids `teams`: fetch the
match row by id; choose the side's team id when the side is `A`/`B` and
that id is truthy, otherwise report an invalid selection; then record and
propagate. -/
def winner_callback (s : List BMatch) (teams : List Nat) (mid : Nat) (side : String) :
    CbResult :=
  match s.find? (fun m => decide (m.id = mid)) with
  | none => ⟨s, none, false, some "Match not found"⟩
  | some m =>
    if side = "A" ∧ truthy m.teamA then
      recordAndPropagate s teams mid (m.teamA.getD 0)
    else if side = "B" ∧ truthy m.teamB then
      recordAndPropagate s teams mid (m.teamB.getD 0)
    else ⟨s, none, false, some "Invalid selection"⟩

/-- `declare_winner` (`bot.py` lines 1118-1131): the tournament status
becomes `finished` exactly when a champion id was declared and it names an
existing team. -/
def tournamentFinished (teams : List Nat) (champion : Option Nat) : Bool :=
  match champion with
  | some w => decide (w ∈ teams)
  | none => false

/-- The admin bracket-generation gate (`bot.py` lines 910-918): with fewer
than two registered teams the handler refuses and the builder is never
invoked, otherwise it builds the bracket. -/
def admin_generate (teams : List Nat) : Option (List BMatch) :=
  if teams.length < 2 then none else some (generate_bracket teams)

/-- All row ids of the table are distinct (the `id INTEGER PRIMARY KEY`
column). -/
def nodupIds (s : List BMatch) : Prop := (s.map (fun m => m.id)).Nodup

/-- All (round, match) keys of the table are distinct, so the in-memory
dictionary of the sweep loses no row. -/
def nodupKeys (s : List BMatch) : Prop := (s.map bkey).Nodup

/-- Every round from 0 up to the maximal one is inhabited: the bracket has
no gap in its round indices. -/
def contiguousRounds (s : List BMatch) : Prop :=
  ∀ r, r ≤ maxRoundOf s → ∃ m ∈ s, m.roundIndex = r

/-- Overlay of an optional new value over an optional old one. -/
def overlay (o : Option Nat) (dflt : Option Nat) : Option Nat :=
  match o with
  | some v => some v
  | none => dflt

/-- The last write in `ws` that targets the A slot of row id `i`, if any. -/
def lastA (ws : List SlotWrite) (i : Nat) : Option Nat :=
  (ws.reverse.find? (fun w => decide (w.dest = i ∧ w.pos = 0))).map (fun w => w.team)

/-- The last write in `ws` that targets the B slot of row id `i`, if any. -/
def lastB (ws : List SlotWrite) (i : Nat) : Option Nat :=
  (ws.reverse.find? (fun w => decide (w.dest = i ∧ w.pos ≠ 0))).map (fun w => w.team)

/-- A row transformation that can change only the `teamA`/`teamB` slots:
id, round index, match index and winner are untouched.  Slot writes are of
this shape, which drives the idempotence of the sweep. -/
def keyFixed (g : BMatch → BMatch) : Prop :=
  ∀ x, (g x).id = x.id ∧ (g x).roundIndex = x.roundIndex ∧
    (g x).matchIndex = x.matchIndex ∧ (g x).winner = x.winner

/-! Basic facts about rows, writes and the helper functions. -/

theorem BMatch.eq_of_fields {x y : BMatch}
    (h1 : x.id = y.id) (h2 : x.roundIndex = y.roundIndex)
    (h3 : x.matchIndex = y.matchIndex) (h4 : x.teamA = y.teamA)
    (h5 : x.teamB = y.teamB) (h6 : x.winner = y.winner) : x = y := by
  cases x
  cases y
  simp_all

theorem truthy_eq_some {o : Option Nat} (h : truthy o = true) : o = some (o.getD 0) := by
  cases o with
  | none => simp [truthy] at h
  | some v => rfl

theorem truthy_some {w : Nat} (h : w ≠ 0) : truthy (some w) = true := by
  simp [truthy, h]

theorem writeRow_id (w : SlotWrite) (x : BMatch) : (writeRow w x).id = x.id := by
  unfold writeRow
  split
  · split <;> rfl
  · rfl

theorem writeRow_roundIndex (w : SlotWrite) (x : BMatch) :
    (writeRow w x).roundIndex = x.roundIndex := by
  unfold writeRow
  split
  · split <;> rfl
  · rfl

theorem writeRow_matchIndex (w : SlotWrite) (x : BMatch) :
    (writeRow w x).matchIndex = x.matchIndex := by
  unfold writeRow
  split
  · split <;> rfl
  · rfl

theorem writeRow_winner (w : SlotWrite) (x : BMatch) : (writeRow w x).winner = x.winner := by
  unfold writeRow
  split
  · split <;> rfl
  · rfl

theorem applyRow_nil (x : BMatch) : applyRow [] x = x := rfl

theorem applyRow_cons (w : SlotWrite) (ws : List SlotWrite) (x : BMatch) :
    applyRow (w :: ws) x = applyRow ws (writeRow w x) := rfl

theorem applyRow_id (ws : List SlotWrite) (x : BMatch) : (applyRow ws x).id = x.id := by
  induction ws generalizing x with
  | nil => rfl
  | cons w ws ih => rw [applyRow_cons, ih, writeRow_id]

theorem applyRow_roundIndex (ws : List SlotWrite) (x : BMatch) :
    (applyRow ws x).roundIndex = x.roundIndex := by
  induction ws generalizing x with
  | nil => rfl
  | cons w ws ih => rw [applyRow_cons, ih, writeRow_roundIndex]

theorem applyRow_matchIndex (ws : List SlotWrite) (x : BMatch) :
    (applyRow ws x).matchIndex = x.matchIndex := by
  induction ws generalizing x with
  | nil => rfl
  | cons w ws ih => rw [applyRow_cons, ih, writeRow_matchIndex]

theorem applyRow_winner (ws : List SlotWrite) (x : BMatch) :
    (applyRow ws x).winner = x.winner := by
  induction ws generalizing x with
  | nil => rfl
  | cons w ws ih => rw [applyRow_cons, ih, writeRow_winner]

theorem applyWrites_eq_map (ws : List SlotWrite) (s : List BMatch) :
    applyWrites ws s = s.map (applyRow ws) := by
  induction ws generalizing s with
  | nil =>
    have h : (applyRow ([] : List SlotWrite)) = fun x => x := funext fun x => rfl
    simp [applyWrites, h]
  | cons w ws ih =>
    show applyWrites ws (applyWrite s w) = _
    rw [ih]
    unfold applyWrite
    rw [List.map_map]
    rfl

theorem find?_append' (p : SlotWrite → Bool) (l₁ l₂ : List SlotWrite) :
    (l₁ ++ l₂).find? p =
      match l₁.find? p with
      | some x => some x
      | none => l₂.find? p := by
  induction l₁ with
  | nil => simp
  | cons a l ih =>
    by_cases h : p a
    · simp [List.find?_cons, h]
    · simp only [List.cons_append, List.find?_cons, h]
      simpa [h] using ih

theorem lastA_cons (w : SlotWrite) (ws : List SlotWrite) (i : Nat) :
    lastA (w :: ws) i =
      overlay (lastA ws i) (if w.dest = i ∧ w.pos = 0 then some w.team else none) := by
  unfold lastA
  rw [List.reverse_cons, find?_append']
  by_cases h : w.dest = i ∧ w.pos = 0
  · cases hf : (ws.reverse.find? fun w => decide (w.dest = i ∧ w.pos = 0)) with
    | none => simp [hf, overlay, List.find?_cons, h]
    | some v => simp [hf, overlay, h]
  · cases hf : (ws.reverse.find? fun w => decide (w.dest = i ∧ w.pos = 0)) with
    | none => simp [hf, overlay, List.find?_cons, h]
    | some v => simp [hf, overlay, h]

theorem lastB_cons (w : SlotWrite) (ws : List SlotWrite) (i : Nat) :
    lastB (w :: ws) i =
      overlay (lastB ws i) (if w.dest = i ∧ w.pos ≠ 0 then some w.team else none) := by
  unfold lastB
  rw [List.reverse_cons, find?_append']
  by_cases h : w.dest = i ∧ w.pos ≠ 0
  · cases hf : (ws.reverse.find? fun w => decide (w.dest = i ∧ w.pos ≠ 0)) with
    | none => simp [hf, overlay, List.find?_cons, h]
    | some v => simp [hf, overlay, h]
  · cases hf : (ws.reverse.find? fun w => decide (w.dest = i ∧ w.pos ≠ 0)) with
    | none => simp [hf, overlay, List.find?_cons, h]
    | some v => simp [hf, overlay, h]

theorem overlay_overlay (o d : Option Nat) : overlay o (overlay o d) = overlay o d := by
  cases o <;> rfl

theorem applyRow_teamA (ws : List SlotWrite) (x : BMatch) :
    (applyRow ws x).teamA = overlay (lastA ws x.id) x.teamA := by
  induction ws generalizing x with
  | nil => simp [applyRow_nil, lastA, overlay]
  | cons w ws ih =>
    rw [applyRow_cons, ih, writeRow_id, lastA_cons]
    by_cases hl : ∃ v, lastA ws x.id = some v
    · rcases hl with ⟨v, hv⟩
      cases hif : (if w.dest = x.id ∧ w.pos = 0 then some w.team else none) <;>
        simp [hv, overlay]
    · have hn : lastA ws x.id = none := by
        cases hc : lastA ws x.id with
        | none => rfl
        | some v => exact absurd ⟨v, hc⟩ hl
      rw [hn]
      by_cases h : w.dest = x.id ∧ w.pos = 0
      · have : (writeRow w x).teamA = some w.team := by
          unfold writeRow
          rw [if_pos h.1.symm, if_pos h.2]
        simp [h, this, overlay]
      · have : (writeRow w x).teamA = x.teamA := by
          unfold writeRow
          by_cases hd : x.id = w.dest
          · have hp : ¬ w.pos = 0 := fun hp => h ⟨hd.symm, hp⟩
            rw [if_pos hd, if_neg hp]
          · rw [if_neg hd]
        simp [h, this, overlay]

theorem applyRow_teamB (ws : List SlotWrite) (x : BMatch) :
    (applyRow ws x).teamB = overlay (lastB ws x.id) x.teamB := by
  induction ws generalizing x with
  | nil => simp [applyRow_nil, lastB, overlay]
  | cons w ws ih =>
    rw [applyRow_cons, ih, writeRow_id, lastB_cons]
    by_cases hl : ∃ v, lastB ws x.id = some v
    · rcases hl with ⟨v, hv⟩
      cases hif : (if w.dest = x.id ∧ w.pos ≠ 0 then some w.team else none) <;>
        simp [hv, overlay]
    · have hn : lastB ws x.id = none := by
        cases hc : lastB ws x.id with
        | none => rfl
        | some v => exact absurd ⟨v, hc⟩ hl
      rw [hn]
      by_cases h : w.dest = x.id ∧ w.pos ≠ 0
      · have : (writeRow w x).teamB = some w.team := by
          unfold writeRow
          rw [if_pos h.1.symm, if_neg h.2]
        simp [h, this, overlay]
      · have : (writeRow w x).teamB = x.teamB := by
          unfold writeRow
          by_cases hd : x.id = w.dest
          · have hp : w.pos = 0 := by
              by_contra hp
              exact h ⟨hd.symm, hp⟩
            rw [if_pos hd, if_pos hp]
          · rw [if_neg hd]
        simp [h, this, overlay]

theorem applyRow_applyRow (ws : List SlotWrite) (x : BMatch) :
    applyRow ws (applyRow ws x) = applyRow ws x := by
  apply BMatch.eq_of_fields
  · rw [applyRow_id, applyRow_id]
  · rw [applyRow_roundIndex, applyRow_roundIndex]
  · rw [applyRow_matchIndex, applyRow_matchIndex]
  · rw [applyRow_teamA, applyRow_teamA, applyRow_id, overlay_overlay]
  · rw [applyRow_teamB, applyRow_teamB, applyRow_id, overlay_overlay]
  · rw [applyRow_winner, applyRow_winner]

theorem applyRow_untouched (ws : List SlotWrite) (x : BMatch)
    (h : ∀ w ∈ ws, w.dest ≠ x.id) : applyRow ws x = x := by
  induction ws generalizing x with
  | nil => rfl
  | cons w ws ih =>
    have hw : writeRow w x = x := by
      unfold writeRow
      rw [if_neg]
      intro hc
      exact h w (List.mem_cons_self w ws) hc.symm
    rw [applyRow_cons, hw]
    exact ih x (fun w' hw' => h w' (List.mem_cons_of_mem w hw'))

/-! Generic list helpers: unique finds, maxima of folded lists. -/

theorem find?_eq_some_of_mem_unique {α : Type} {p : α → Bool} {l : List α} {a : α}
    (ha : a ∈ l) (hpa : p a = true) (huniq : ∀ b ∈ l, p b = true → b = a) :
    l.find? p = some a := by
  induction l with
  | nil => cases ha
  | cons c l ih =>
    by_cases hc : p c
    · have hca : c = a := huniq c (List.mem_cons_self c l) hc
      rw [List.find?_cons_of_pos _ hc, hca]
    · rw [List.find?_cons_of_neg _ hc]
      have ha' : a ∈ l := by
        rcases List.mem_cons.1 ha with h | h
        · exact absurd (h ▸ hpa) hc
        · exact h
      exact ih ha' (fun b hb hpb => huniq b (List.mem_cons_of_mem c hb) hpb)

theorem le_foldl_max (l : List Nat) (a : Nat) :
    a ≤ l.foldl max a ∧ ∀ x ∈ l, x ≤ l.foldl max a := by
  induction l generalizing a with
  | nil => exact ⟨Nat.le_refl a, fun x hx => absurd hx (List.not_mem_nil x)⟩
  | cons b l ih =>
    rcases ih (max a b) with ⟨h1, h2⟩
    constructor
    · rw [List.foldl_cons]
      exact Nat.le_trans (Nat.le_max_left a b) h1
    · intro x hx
      rw [List.foldl_cons]
      rcases List.mem_cons.1 hx with h | h
      · rw [h]
        exact Nat.le_trans (Nat.le_max_right a b) h1
      · exact h2 x h

theorem foldl_max_mem (l : List Nat) (a : Nat) :
    l.foldl max a = a ∨ l.foldl max a ∈ l := by
  induction l generalizing a with
  | nil => exact Or.inl rfl
  | cons b l ih =>
    rcases ih (max a b) with h | h
    · rcases max_choice a b with hm | hm
      · exact Or.inl (by rw [List.foldl_cons, h, hm])
      · exact Or.inr (by rw [List.foldl_cons, h, hm]; exact List.mem_cons_self b l)
    · exact Or.inr (List.mem_cons_of_mem b h)

theorem mem_le_maxRoundOf {s : List BMatch} {m : BMatch} (hm : m ∈ s) :
    m.roundIndex ≤ maxRoundOf s := by
  unfold maxRoundOf
  exact (le_foldl_max (s.map (fun m => m.roundIndex)) 0).2 m.roundIndex
    (List.mem_map_of_mem (fun m => m.roundIndex) hm)

theorem maxRoundOf_attained (s : List BMatch) :
    maxRoundOf s = 0 ∨ ∃ m ∈ s, m.roundIndex = maxRoundOf s := by
  unfold maxRoundOf
  rcases foldl_max_mem (s.map (fun m => m.roundIndex)) 0 with h | h
  · exact Or.inl h
  · rcases List.mem_map.1 h with ⟨m, hm, hr⟩
    exact Or.inr ⟨m, hm, hr⟩

theorem maxRoundOf_eq_of_roundSet {s t : List BMatch}
    (h : ∀ r, (∃ m ∈ s, m.roundIndex = r) ↔ (∃ m ∈ t, m.roundIndex = r)) :
    maxRoundOf s = maxRoundOf t := by
  apply Nat.le_antisymm
  · rcases maxRoundOf_attained s with h0 | ⟨m, hm, hr⟩
    · rw [h0]; exact Nat.zero_le _
    · rcases (h (maxRoundOf s)).1 ⟨m, hm, hr⟩ with ⟨m', hm', hr'⟩
      exact hr' ▸ mem_le_maxRoundOf hm'
  · rcases maxRoundOf_attained t with h0 | ⟨m, hm, hr⟩
    · rw [h0]; exact Nat.zero_le _
    · rcases (h (maxRoundOf t)).2 ⟨m, hm, hr⟩ with ⟨m', hm', hr'⟩
      exact hr' ▸ mem_le_maxRoundOf hm'

/-! Facts about the dictionary construction. -/

theorem mem_of_mem_dictInsert {acc : List BMatch} {m x : BMatch}
    (hx : x ∈ dictInsert acc m) : x ∈ acc ∨ x = m := by
  unfold dictInsert at hx
  split at hx
  · rcases List.mem_map.1 hx with ⟨y, hy, hxy⟩
    by_cases hk : bkey y = bkey m
    · right; rw [← hxy, if_pos hk]
    · left; rw [← hxy, if_neg hk]; exact hy
  · rcases List.mem_append.1 hx with h | h
    · exact Or.inl h
    · exact Or.inr (List.mem_singleton.1 h)

theorem mem_of_foldl_dictInsert {x : BMatch} :
    ∀ (ms acc : List BMatch), x ∈ List.foldl dictInsert acc ms → x ∈ acc ∨ x ∈ ms
  | [], _, h => Or.inl h
  | m :: ms, acc, h => by
    rcases mem_of_foldl_dictInsert ms (dictInsert acc m) h with h' | h'
    · rcases mem_of_mem_dictInsert h' with h'' | h''
      · exact Or.inl h''
      · exact Or.inr (h'' ▸ List.mem_cons_self m ms)
    · exact Or.inr (List.mem_cons_of_mem m h')

theorem mem_of_mem_dictOf {ms : List BMatch} {x : BMatch} (hx : x ∈ dictOf ms) : x ∈ ms :=
  (mem_of_foldl_dictInsert ms [] hx).elim (fun h => absurd h (List.not_mem_nil x)) id

theorem dictOf_eq_self {ms : List BMatch} (h : nodupKeys ms) : dictOf ms = ms := by
  suffices hgen : ∀ acc ms, ((acc ++ ms).map bkey).Nodup →
      List.foldl dictInsert acc ms = acc ++ ms by
    have := hgen [] ms (by simpa [nodupKeys] using h)
    simpa [dictOf] using this
  intro acc ms
  induction ms generalizing acc with
  | nil => intro _; simp
  | cons m ms ih =>
    intro hnd
    have hkm : ∀ x ∈ acc, ¬ bkey x = bkey m := by
      intro x hx hk
      have h1 : bkey x ∈ acc.map bkey := List.mem_map_of_mem bkey hx
      have hnd' : (acc.map bkey ++ (bkey m :: ms.map bkey)).Nodup := by simpa using hnd
      have hdisj := (List.nodup_append.1 hnd').2.2
      exact hdisj h1 (by rw [hk]; exact List.mem_cons_self _ _)
    have hins : dictInsert acc m = acc ++ [m] := by
      unfold dictInsert
      rw [if_neg]
      simp only [List.any_eq_true, decide_eq_true_eq, not_exists]
      intro x
      intro hx
      exact hkm x hx.1 hx.2
    rw [List.foldl_cons, hins, ih (acc ++ [m]) (by simpa using hnd)]
    simp

theorem hasRound_iff {d : List BMatch} {r : Nat} :
    hasRound d r = true ↔ ∃ x ∈ d, x.roundIndex = r := by
  simp [hasRound, List.any_eq_true]

/-! Facts about the sweep. -/

theorem sweep_writes_mem {d : List BMatch} {n : Nat} {w : SlotWrite}
    (hw : w ∈ (sweep d n).1) : ∃ r, r < n ∧ w ∈ roundWrites d r := by
  induction n with
  | zero => cases hw
  | succ n ih =>
    unfold sweep at hw
    rcases hs : sweep d n with ⟨ws, err⟩
    rw [hs] at hw
    cases err with
    | true =>
      rcases ih (hs ▸ hw : w ∈ (sweep d n).1) with ⟨r, hr, hrw⟩
      exact ⟨r, Nat.lt_succ_of_lt hr, hrw⟩
    | false =>
      by_cases h1 : hasRound d (n + 1)
      · by_cases h0 : hasRound d n
        · simp only [h1, h0, if_pos] at hw
          rcases List.mem_append.1 hw with h | h
          · rcases ih (hs ▸ h : w ∈ (sweep d n).1) with ⟨r, hr, hrw⟩
            exact ⟨r, Nat.lt_succ_of_lt hr, hrw⟩
          · exact ⟨n, Nat.lt_succ_self n, h⟩
        · simp only [h1, h0, if_pos, if_neg, Bool.false_eq_true, not_false_eq_true] at hw
          rcases ih (hs ▸ hw : w ∈ (sweep d n).1) with ⟨r, hr, hrw⟩
          exact ⟨r, Nat.lt_succ_of_lt hr, hrw⟩
      · simp only [h1] at hw
        rcases ih (hs ▸ hw : w ∈ (sweep d n).1) with ⟨r, hr, hrw⟩
        exact ⟨r, Nat.lt_succ_of_lt hr, hrw⟩

theorem sweep_complete {d : List BMatch} {n : Nat}
    (hc : ∀ r, r ≤ n → hasRound d r = true) :
    sweep d n = ((List.range n).flatMap (roundWrites d), false) := by
  induction n with
  | zero => rfl
  | succ n ih =>
    have ihn := ih (fun r hr => hc r (Nat.le_succ_of_le hr))
    unfold sweep
    rw [ihn]
    dsimp only
    rw [if_pos (hc (n + 1) (Nat.le_refl _)), if_pos (hc n (Nat.le_succ_of_le (Nat.le_refl n)))]
    rw [List.range_succ]
    simp

theorem roundWrites_mem {d : List BMatch} {r : Nat} {w : SlotWrite} :
    w ∈ roundWrites d r ↔ ∃ m ∈ d, m.roundIndex = r ∧ truthy m.winner = true ∧
      ∃ nm, d.find? (fun x => decide (x.roundIndex = r + 1 ∧ x.matchIndex = m.matchIndex / 2))
          = some nm ∧ w = ⟨nm.id, m.matchIndex % 2, m.winner.getD 0⟩ := by
  constructor
  · intro hw
    rcases List.mem_filterMap.1 hw with ⟨m, hm, hfm⟩
    rcases List.mem_filter.1 hm with ⟨hmd, hmr⟩
    have hmr' : m.roundIndex = r := of_decide_eq_true hmr
    by_cases ht : truthy m.winner
    · rw [if_pos ht] at hfm
      cases hfind : d.find?
          (fun x => decide (x.roundIndex = r + 1 ∧ x.matchIndex = m.matchIndex / 2)) with
      | none => rw [hfind] at hfm; cases hfm
      | some nm =>
        rw [hfind] at hfm
        exact ⟨m, hmd, hmr', ht, nm, hfind, (Option.some_inj.1 hfm).symm⟩
    · rw [if_neg ht] at hfm; cases hfm
  · rintro ⟨m, hmd, hmr, ht, nm, hfind, hw⟩
    apply List.mem_filterMap.2
    refine ⟨m, List.mem_filter.2 ⟨hmd, decide_eq_true hmr⟩, ?_⟩
    rw [if_pos ht, hfind, hw]

/-! Slot writes only touch team slots; every stage of the sweep computation
is invariant under such slot-only rewrites of the table. -/

theorem keyFixed_applyRow (ws : List SlotWrite) : keyFixed (applyRow ws) :=
  fun x => ⟨applyRow_id ws x, applyRow_roundIndex ws x, applyRow_matchIndex ws x,
    applyRow_winner ws x⟩

theorem bkey_keyFixed {g : BMatch → BMatch} (hg : keyFixed g) (x : BMatch) :
    bkey (g x) = bkey x := by
  unfold bkey
  rw [(hg x).2.1, (hg x).2.2.1]

theorem matchLE_keyFixed {g : BMatch → BMatch} (hg : keyFixed g) (a b : BMatch) :
    matchLE (g a) (g b) ↔ matchLE a b := by
  unfold matchLE
  rw [(hg a).2.1, (hg a).2.2.1, (hg b).2.1, (hg b).2.2.1]

theorem orderedInsert_map {g : BMatch → BMatch} (hg : keyFixed g) (a : BMatch) :
    ∀ l : List BMatch,
      List.orderedInsert matchLE (g a) (l.map g) = (List.orderedInsert matchLE a l).map g
  | [] => rfl
  | b :: l => by
    rw [List.map_cons]
    by_cases h : matchLE a b
    · rw [List.orderedInsert, List.orderedInsert,
        if_pos ((matchLE_keyFixed hg a b).2 h), if_pos h, List.map_cons, List.map_cons]
    · rw [List.orderedInsert, List.orderedInsert,
        if_neg (fun hc => h ((matchLE_keyFixed hg a b).1 hc)), if_neg h, List.map_cons,
        orderedInsert_map hg a l]

theorem sortMatches_map {g : BMatch → BMatch} (hg : keyFixed g) (s : List BMatch) :
    sortMatches (s.map g) = (sortMatches s).map g := by
  unfold sortMatches
  induction s with
  | nil => rfl
  | cons a s ih =>
    rw [List.map_cons, List.insertionSort, List.insertionSort, ih, orderedInsert_map hg]

theorem dictInsert_map {g : BMatch → BMatch} (hg : keyFixed g) (acc : List BMatch)
    (m : BMatch) : dictInsert (acc.map g) (g m) = (dictInsert acc m).map g := by
  unfold dictInsert
  have hany : ∀ (l : List BMatch) (k : Nat × Nat),
      (l.map g).any (fun x => decide (bkey x = k)) = l.any (fun x => decide (bkey x = k)) := by
    intro l k
    induction l with
    | nil => rfl
    | cons a l ih => simp only [List.map_cons, List.any_cons, ih, bkey_keyFixed hg]
  rw [bkey_keyFixed hg m, hany acc (bkey m)]
  by_cases h : acc.any (fun x => decide (bkey x = bkey m)) = true
  · rw [if_pos h, if_pos h, List.map_map, List.map_map]
    apply List.map_congr_left
    intro x _
    simp only [Function.comp_apply, bkey_keyFixed hg]
    by_cases hk : bkey x = bkey m
    · rw [if_pos hk, if_pos hk]
    · rw [if_neg hk, if_neg hk]
  · rw [if_neg h, if_neg h, List.map_append]
    rfl

theorem foldl_dictInsert_map {g : BMatch → BMatch} (hg : keyFixed g) :
    ∀ (l acc : List BMatch),
      List.foldl dictInsert (acc.map g) (l.map g) = (List.foldl dictInsert acc l).map g
  | [], _ => rfl
  | m :: l, acc => by
    rw [List.map_cons, List.foldl_cons, List.foldl_cons, dictInsert_map hg,
      foldl_dictInsert_map hg l (dictInsert acc m)]

theorem dictOf_map {g : BMatch → BMatch} (hg : keyFixed g) (ms : List BMatch) :
    dictOf (ms.map g) = (dictOf ms).map g := by
  have h := foldl_dictInsert_map hg ms []
  simpa [dictOf] using h

theorem maxRoundOf_map {g : BMatch → BMatch} (hg : keyFixed g) (l : List BMatch) :
    maxRoundOf (l.map g) = maxRoundOf l := by
  have h : ∀ l : List BMatch,
      (l.map g).map (fun m => m.roundIndex) = l.map (fun m => m.roundIndex) := by
    intro l
    induction l with
    | nil => rfl
    | cons a l ih => simp only [List.map_cons, ih, (hg a).2.1]
  unfold maxRoundOf
  rw [h]

theorem hasRound_map {g : BMatch → BMatch} (hg : keyFixed g) (d : List BMatch) (r : Nat) :
    hasRound (d.map g) r = hasRound d r := by
  unfold hasRound
  induction d with
  | nil => rfl
  | cons a d ih => simp only [List.map_cons, List.any_cons, ih, (hg a).2.1]

theorem find?_map_keyed {g : BMatch → BMatch} (p q : BMatch → Bool)
    (hpq : ∀ x, p (g x) = q x) :
    ∀ l : List BMatch, (l.map g).find? p = (l.find? q).map g
  | [] => rfl
  | a :: l => by
    rw [List.map_cons]
    by_cases h : q a = true
    · rw [List.find?_cons_of_pos _ (by rw [hpq a]; exact h), List.find?_cons_of_pos _ h]
      rfl
    · rw [List.find?_cons_of_neg _ (by rw [hpq a]; exact h), List.find?_cons_of_neg _ h,
        find?_map_keyed p q hpq l]

theorem roundWrites_map {g : BMatch → BMatch} (hg : keyFixed g) (d : List BMatch) (r : Nat) :
    roundWrites (d.map g) r = roundWrites d r := by
  unfold roundWrites
  have hfilter : (d.map g).filter (fun m => decide (m.roundIndex = r))
      = (d.filter (fun m => decide (m.roundIndex = r))).map g := by
    induction d with
    | nil => rfl
    | cons a d ih =>
      rw [List.map_cons, List.filter_cons, List.filter_cons]
      by_cases h : a.roundIndex = r
      · have h1 : decide ((g a).roundIndex = r) = true := by
          rw [(hg a).2.1]; exact decide_eq_true h
        rw [if_pos h1, if_pos (decide_eq_true h), List.map_cons, ih]
      · have h1 : ¬ decide ((g a).roundIndex = r) = true := by
          rw [(hg a).2.1]; simpa using h
        have h2 : ¬ decide (a.roundIndex = r) = true := by simpa using h
        rw [if_neg h1, if_neg h2, ih]
  rw [hfilter, List.filterMap_map]
  congr 1
  funext m
  simp only [Function.comp_apply]
  rw [(hg m).2.2.2, (hg m).2.2.1]
  by_cases ht : truthy m.winner = true
  · rw [if_pos ht, if_pos ht]
    rw [find?_map_keyed
      (fun x => decide (x.roundIndex = r + 1 ∧ x.matchIndex = m.matchIndex / 2))
      (fun x => decide (x.roundIndex = r + 1 ∧ x.matchIndex = m.matchIndex / 2))
      (fun x => by
        show decide ((g x).roundIndex = r + 1 ∧ (g x).matchIndex = m.matchIndex / 2)
            = decide (x.roundIndex = r + 1 ∧ x.matchIndex = m.matchIndex / 2)
        rw [(hg x).2.1, (hg x).2.2.1]) d]
    cases hf : d.find?
        (fun x => decide (x.roundIndex = r + 1 ∧ x.matchIndex = m.matchIndex / 2)) with
    | none => rfl
    | some nm =>
      simp only [Option.map_some']
      rw [(hg nm).1]
  · rw [if_neg ht, if_neg ht]

theorem sweep_map {g : BMatch → BMatch} (hg : keyFixed g) (d : List BMatch) :
    ∀ n : Nat, sweep (d.map g) n = sweep d n
  | 0 => rfl
  | n + 1 => by
    unfold sweep
    simp only [sweep_map hg d n, hasRound_map hg, roundWrites_map hg]

/-! Shape of the propagation result. -/

theorem sortMatches_eq_nil_iff {s : List BMatch} : sortMatches s = [] ↔ s = [] := by
  constructor
  · intro h
    have hl : (sortMatches s).length = s.length := List.length_insertionSort matchLE s
    rw [h] at hl
    exact List.eq_nil_of_length_eq_zero hl.symm
  · intro h
    rw [h]
    rfl

theorem propagate_state_eq {s : List BMatch} (h : ¬ (sortMatches s).isEmpty = true) :
    (propagate_winner s).state
      = applyWrites (sweep (dictOf (sortMatches s)) (maxRoundOf (dictOf (sortMatches s)))).1 s := by
  unfold propagate_winner
  dsimp only
  rw [if_neg h]

/-! The sorted query result is a permutation of the table. -/

theorem sortMatches_perm (s : List BMatch) : (sortMatches s).Perm s :=
  List.perm_insertionSort matchLE s

theorem mem_sortMatches {s : List BMatch} {x : BMatch} : x ∈ sortMatches s ↔ x ∈ s :=
  (sortMatches_perm s).mem_iff

theorem nodupIds_sortMatches {s : List BMatch} (h : nodupIds s) : nodupIds (sortMatches s) := by
  unfold nodupIds at *
  exact ((sortMatches_perm s).map (fun m => m.id)).nodup_iff.2 h

theorem nodupKeys_sortMatches {s : List BMatch} (h : nodupKeys s) : nodupKeys (sortMatches s) := by
  unfold nodupKeys at *
  exact ((sortMatches_perm s).map bkey).nodup_iff.2 h

theorem maxRoundOf_sortMatches (s : List BMatch) : maxRoundOf (sortMatches s) = maxRoundOf s := by
  apply maxRoundOf_eq_of_roundSet
  intro r
  constructor
  · rintro ⟨m, hm, hr⟩
    exact ⟨m, mem_sortMatches.1 hm, hr⟩
  · rintro ⟨m, hm, hr⟩
    exact ⟨m, mem_sortMatches.2 hm, hr⟩

/-! Shape of generated brackets. -/

theorem genMatches_roundIndex : ∀ (ts : List Nat) (k : Nat) (m : BMatch),
    m ∈ genMatches k ts → m.roundIndex = 0
  | [], _, m, h => absurd h (List.not_mem_nil m)
  | [a], k, m, h => by
    have hm : m = ⟨k, 0, k, some a, none, none⟩ := by simpa [genMatches] using h
    rw [hm]
  | a :: b :: rest, k, m, h => by
    rcases List.mem_cons.1 h with h' | h'
    · rw [h']
    · exact genMatches_roundIndex rest (k + 1) m h'

theorem genMatches_flatten : ∀ (ts : List Nat) (k : Nat),
    (genMatches k ts).flatMap (fun m => m.teamA.toList ++ m.teamB.toList) = ts
  | [], _ => rfl
  | [_], _ => rfl
  | a :: b :: rest, k => by
    show (⟨k, 0, k, some a, some b, none⟩ :: genMatches (k + 1) rest).flatMap
        (fun m => m.teamA.toList ++ m.teamB.toList) = a :: b :: rest
    rw [List.flatMap_cons, genMatches_flatten rest (k + 1)]
    rfl

/-! Settled claims. -/

/-- Claim C2: for every team count `n >= 2`, bracket generation produces
`ceil_pow2(n)/2` round-0 matches and `log2(ceil_pow2(n))` total rounds,
with exactly one match in the final round, every round after round 0 being
empty placeholder matches.  The code does none of this: on 4 teams it
emits exactly the 2 round-0 matches and no later-round rows at all
(1 round instead of 2, no separate final), and on 6 teams it emits 3
round-0 matches instead of `ceil_pow2(6)/2 = 4` (no power-of-two
padding). -/
theorem claim_C2_generation_rounds :
    generate_bracket [1, 2, 3, 4]
      = [⟨0, 0, 0, some 1, some 2, none⟩, ⟨1, 0, 1, some 3, some 4, none⟩]
    ∧ ((generate_bracket [1, 2, 3, 4]).all (fun m => decide (m.roundIndex = 0))) = true
    ∧ (generate_bracket [1, 2, 3, 4, 5, 6]).length = 3 := by
  exact ⟨rfl, rfl, rfl⟩

/-- Claim C3, counterexample: building from the 3 teams `[1, 2, 3]` yields
the bye match `⟨1, 0, 1, some 3, none, none⟩` (sole real team 3), and after
the first propagation pass — with no winner recorded — that match's winner
is still `none`, not `some 3` as the claim demands. -/
theorem claim_C3_counterexample :
    generate_bracket [1, 2, 3]
      = [⟨0, 0, 0, some 1, some 2, none⟩, ⟨1, 0, 1, some 3, none, none⟩]
    ∧ (propagate_winner (generate_bracket [1, 2, 3])).state
      = [⟨0, 0, 0, some 1, some 2, none⟩, ⟨1, 0, 1, some 3, none, none⟩] := by
  exact ⟨rfl, rfl⟩

/-- Claim C3 as amended: for every bracket built from 3 teams, the first
propagation pass leaves the whole bracket unchanged and in particular the
bye match's winner absent — byes do not auto-resolve; the sole real team
advances only when a winner is recorded explicitly through the
winner-selection interface. -/
theorem claim_C3_no_bye_auto (a b c : Nat) :
    (propagate_winner (generate_bracket [a, b, c])).state = generate_bracket [a, b, c]
    ∧ (generate_bracket [a, b, c]).map (fun m => m.winner) = [none, none] :=
  ⟨rfl, rfl⟩

/-- Claim C4: recording a winner for a match that already has one is
supposed to fail with `AlreadyDecided` and leave the state unchanged.  The
code has no such check — the handler does not even read the stored winner —
and silently overwrites it: on a match already won by team 1, selecting
side B records team 2 as the new winner and reports success (and, the match
being the sole final here, even declares team 2 champion). -/
theorem claim_C4_overwrite_eval :
    winner_callback [⟨0, 0, 0, some 1, some 2, some 1⟩] [1, 2] 0 "B"
      = ⟨[⟨0, 0, 0, some 1, some 2, some 2⟩], some 2, false, none⟩ := by
  decide

/-- Claim C5: for every bracket state, running `propagate` twice in a row
with no intervening `recordWinner` produces the same match state as running
it once: propagation is idempotent on the match table. -/
theorem claim_C5_propagate_idempotent (s : List BMatch) :
    (propagate_winner (propagate_winner s).state).state = (propagate_winner s).state := by
  by_cases hs : (sortMatches s).isEmpty = true
  · have hnil : s = [] := sortMatches_eq_nil_iff.1 (List.isEmpty_iff.1 hs)
    subst hnil
    rfl
  · have h1 : (propagate_winner s).state
        = applyWrites (sweep (dictOf (sortMatches s)) (maxRoundOf (dictOf (sortMatches s)))).1 s :=
      propagate_state_eq hs
    set ws := (sweep (dictOf (sortMatches s)) (maxRoundOf (dictOf (sortMatches s)))).1 with hws
    have hg : keyFixed (applyRow ws) := keyFixed_applyRow ws
    have hmap : (propagate_winner s).state = s.map (applyRow ws) := by
      rw [h1, applyWrites_eq_map]
    have hsort2 : sortMatches (s.map (applyRow ws)) = (sortMatches s).map (applyRow ws) :=
      sortMatches_map hg s
    have hne2 : ¬ (sortMatches (s.map (applyRow ws))).isEmpty = true := by
      rw [hsort2]
      intro hc
      have hmn := List.isEmpty_iff.1 hc
      have hnil : sortMatches s = [] := List.map_eq_nil_iff.1 hmn
      exact hs (List.isEmpty_iff.2 hnil)
    have h2 : (propagate_winner (s.map (applyRow ws))).state
        = applyWrites (sweep (dictOf (sortMatches (s.map (applyRow ws))))
            (maxRoundOf (dictOf (sortMatches (s.map (applyRow ws)))))).1 (s.map (applyRow ws)) :=
      propagate_state_eq hne2
    have hdict2 : dictOf (sortMatches (s.map (applyRow ws)))
        = (dictOf (sortMatches s)).map (applyRow ws) := by
      rw [hsort2, dictOf_map hg]
    have hsweep2 : (sweep (dictOf (sortMatches (s.map (applyRow ws))))
        (maxRoundOf (dictOf (sortMatches (s.map (applyRow ws)))))).1 = ws := by
      rw [hdict2, maxRoundOf_map hg, sweep_map hg]
    rw [hmap, h2, hsweep2, applyWrites_eq_map, List.map_map]
    apply List.map_congr_left
    intro x _
    simp only [Function.comp_apply]
    exact applyRow_applyRow ws x

/-- Claim C7, counterexample: the claim requires the builder itself to
reject team lists with fewer than 2 entries with an `InvalidTeamCount`
error.  Instead, on the single-team list `[7]` the builder happily produces
a one-match bracket (and on the empty list an empty bracket) — it contains
no team-count validation at all. -/
theorem claim_C7_counterexample :
    generate_bracket [7] = [⟨0, 0, 0, some 7, none, none⟩]
    ∧ generate_bracket [] = [] :=
  ⟨rfl, rfl⟩

/-- Claim C7 as amended: the builder performs no team-count validation —
for an empty list it returns an empty bracket and for a single team one
round-0 match with an absent `teamB`; the minimum-of-2 gate exists only in
the admin caller, which refuses to invoke the builder on fewer than 2
teams and calls it unguarded otherwise. -/
theorem claim_C7_gate_only_in_caller (teams : List Nat) :
    (teams.length < 2 → admin_generate teams = none)
    ∧ (2 ≤ teams.length → admin_generate teams = some (generate_bracket teams))
    ∧ generate_bracket [] = []
    ∧ (∀ a : Nat, generate_bracket [a] = [⟨0, 0, 0, some a, none, none⟩]) := by
  refine ⟨?_, ?_, rfl, fun a => rfl⟩
  · intro h
    unfold admin_generate
    rw [if_pos h]
  · intro h
    unfold admin_generate
    rw [if_neg (by omega)]

/-- Witness for claim C7's amended statement at concrete inputs: one team
is refused by the caller gate, two teams reach the builder. -/
theorem claim_C7_gate_only_in_caller_witness :
    admin_generate [5] = none ∧ admin_generate [5, 6] = some (generate_bracket [5, 6]) :=
  ⟨(claim_C7_gate_only_in_caller [5]).1 (by decide),
   (claim_C7_gate_only_in_caller [5, 6]).2.1 (by decide)⟩

/-- Claim C8: for every input team list, the union of the `teamA`/`teamB`
slots over the generated round-0 matches, with absent slots removed, is the
input team list itself — every team exactly once, no duplication, no
omission. -/
theorem claim_C8_teams_preserved (teams : List Nat) :
    ((generate_bracket teams).filter (fun m => decide (m.roundIndex = 0))).flatMap
      (fun m => m.teamA.toList ++ m.teamB.toList) = teams := by
  have hf : (generate_bracket teams).filter (fun m => decide (m.roundIndex = 0))
      = generate_bracket teams := by
    rw [List.filter_eq_self]
    intro m hm
    exact decide_eq_true (genMatches_roundIndex teams 0 m hm)
  rw [hf]
  exact genMatches_flatten teams 0

/-! Destinations of sweep writes, and pointwise access to the result. -/

theorem roundWrites_dest {d : List BMatch} {r : Nat} {w : SlotWrite}
    (hw : w ∈ roundWrites d r) : ∃ nm ∈ d, w.dest = nm.id ∧ 1 ≤ nm.roundIndex := by
  rcases roundWrites_mem.1 hw with ⟨m, hmd, hmr, ht, nm, hfind, hweq⟩
  have hnm : nm ∈ d := List.mem_of_find?_eq_some hfind
  have hp0 := List.find?_some hfind
  have hp : nm.roundIndex = r + 1 ∧ nm.matchIndex = m.matchIndex / 2 := by simpa using hp0
  refine ⟨nm, hnm, by rw [hweq], ?_⟩
  rw [hp.1]
  exact Nat.le_add_left 1 r

theorem sweep_dest {d : List BMatch} {n : Nat} {w : SlotWrite}
    (hw : w ∈ (sweep d n).1) : ∃ nm ∈ d, w.dest = nm.id ∧ 1 ≤ nm.roundIndex := by
  rcases sweep_writes_mem hw with ⟨r, _, hrw⟩
  exact roundWrites_dest hrw

theorem getD_map_lt (g : BMatch → BMatch) {s : List BMatch} {i : Nat}
    (h : i < s.length) (d : BMatch) : (s.map g).getD i d = g (s.getD i d) := by
  rw [List.getD_eq_getElem?_getD, List.getD_eq_getElem?_getD, List.getElem?_map]
  cases hx : s[i]? with
  | none =>
    have := List.getElem?_eq_none_iff.1 hx
    omega
  | some x => rfl

theorem getD_mem_of_lt {s : List BMatch} {i : Nat} (h : i < s.length) (d : BMatch) :
    s.getD i d ∈ s := by
  rw [List.getD_eq_getElem?_getD]
  cases hx : s[i]? with
  | none =>
    have := List.getElem?_eq_none_iff.1 hx
    omega
  | some x =>
    have := List.getElem?_mem hx
    simpa using this

theorem propagate_state_keyFixed (t : List BMatch) :
    ∃ g : BMatch → BMatch, keyFixed g ∧ (propagate_winner t).state = t.map g := by
  by_cases h : (sortMatches t).isEmpty = true
  · refine ⟨fun x => x, fun x => ⟨rfl, rfl, rfl, rfl⟩, ?_⟩
    have hnil : t = [] := sortMatches_eq_nil_iff.1 (List.isEmpty_iff.1 h)
    subst hnil
    rfl
  · exact ⟨applyRow (sweep (dictOf (sortMatches t)) (maxRoundOf (dictOf (sortMatches t)))).1,
      keyFixed_applyRow _, by rw [propagate_state_eq h, applyWrites_eq_map]⟩

/-- Claim C1: for every bracket and every match with a recorded winner in
round `r < maxRound`, winner propagation sends that winner to the match at
index `matchIndex / 2` in round `r + 1`, into slot A when `matchIndex` is
even and slot B when it is odd.  Stated for tables with distinct row ids,
distinct (round, match) keys and no gap in the round indices (as the
builder and the store's primary key guarantee), for any destination match
present in the table. -/
theorem claim_C1_winner_slot_routing (s : List BMatch) (m dm : BMatch) (w : Nat)
    (hids : nodupIds s) (hkeys : nodupKeys s) (hcont : contiguousRounds s)
    (hm : m ∈ s) (hdm : dm ∈ s)
    (hw : m.winner = some w) (hw0 : w ≠ 0)
    (hr : m.roundIndex < maxRoundOf s)
    (hdr : dm.roundIndex = m.roundIndex + 1)
    (hdi : dm.matchIndex = m.matchIndex / 2) :
    ∀ x ∈ (propagate_winner s).state, x.id = dm.id →
      (m.matchIndex % 2 = 0 → x.teamA = some w)
      ∧ (m.matchIndex % 2 ≠ 0 → x.teamB = some w) := by
  have hm_ms : m ∈ sortMatches s := mem_sortMatches.2 hm
  have hdm_ms : dm ∈ sortMatches s := mem_sortMatches.2 hdm
  have hkeys_ms : ((sortMatches s).map bkey).Nodup := nodupKeys_sortMatches hkeys
  have hids_ms : ((sortMatches s).map (fun m => m.id)).Nodup := nodupIds_sortMatches hids
  have keyinj := List.inj_on_of_nodup_map hkeys_ms
  have idinj := List.inj_on_of_nodup_map hids_ms
  have hd : dictOf (sortMatches s) = sortMatches s := dictOf_eq_self hkeys_ms
  have hne : ¬ (sortMatches s).isEmpty = true := by
    intro hc
    rw [List.isEmpty_iff.1 hc] at hm_ms
    exact absurd hm_ms (List.not_mem_nil m)
  have hmax : maxRoundOf (sortMatches s) = maxRoundOf s := maxRoundOf_sortMatches s
  have hc' : ∀ r, r ≤ maxRoundOf s → hasRound (sortMatches s) r = true := by
    intro r hrle
    rcases hcont r hrle with ⟨m', hm', hr'⟩
    exact hasRound_iff.2 ⟨m', mem_sortMatches.2 hm', hr'⟩
  have hstate : (propagate_winner s).state
      = applyWrites ((List.range (maxRoundOf s)).flatMap (roundWrites (sortMatches s))) s := by
    rw [propagate_state_eq hne, hd, hmax, sweep_complete hc']
  set wsl := (List.range (maxRoundOf s)).flatMap (roundWrites (sortMatches s)) with hwsl
  set wA : SlotWrite := ⟨dm.id, m.matchIndex % 2, w⟩ with hwA
  have hfind_dm : (sortMatches s).find?
      (fun x => decide (x.roundIndex = m.roundIndex + 1 ∧ x.matchIndex = m.matchIndex / 2))
        = some dm := by
    apply find?_eq_some_of_mem_unique hdm_ms
    · exact decide_eq_true ⟨hdr, hdi⟩
    · intro b hb hpb
      have hpb' : b.roundIndex = m.roundIndex + 1 ∧ b.matchIndex = m.matchIndex / 2 := by
        simpa using hpb
      apply keyinj hb hdm_ms
      unfold bkey
      rw [hpb'.1, hpb'.2, hdr, hdi]
  have hwA_round : wA ∈ roundWrites (sortMatches s) m.roundIndex := by
    apply roundWrites_mem.2
    refine ⟨m, hm_ms, rfl, by rw [hw]; exact truthy_some hw0, dm, hfind_dm, ?_⟩
    rw [hwA, hw]
    rfl
  have hwA_ws : wA ∈ wsl := by
    rw [hwsl]
    exact List.mem_flatMap.2 ⟨m.roundIndex, List.mem_range.2 hr, hwA_round⟩
  have hcore : ∀ b ∈ wsl, b.dest = dm.id → ∃ m', m' ∈ sortMatches s
      ∧ m'.roundIndex = m.roundIndex ∧ m'.matchIndex / 2 = m.matchIndex / 2
      ∧ b = ⟨dm.id, m'.matchIndex % 2, m'.winner.getD 0⟩ := by
    intro b hb hbdest
    rw [hwsl] at hb
    rcases List.mem_flatMap.1 hb with ⟨r', hr', hbw⟩
    rcases roundWrites_mem.1 hbw with ⟨m', hm'd, hm'r, ht', nm', hfind', hbeq⟩
    have hnm'_ms : nm' ∈ sortMatches s := List.mem_of_find?_eq_some hfind'
    have hp0 := List.find?_some hfind'
    have hp' : nm'.roundIndex = r' + 1 ∧ nm'.matchIndex = m'.matchIndex / 2 := by simpa using hp0
    have hnmid : nm'.id = dm.id := by rw [hbeq] at hbdest; exact hbdest
    have hnm_dm : nm' = dm := idinj hnm'_ms hdm_ms hnmid
    have hr'eq : r' = m.roundIndex := by
      have h1 : r' + 1 = m.roundIndex + 1 := by rw [← hp'.1, hnm_dm, hdr]
      omega
    have hdiv : m'.matchIndex / 2 = m.matchIndex / 2 := by
      rw [← hp'.2, hnm_dm, hdi]
    refine ⟨m', hm'd, by rw [hm'r, hr'eq], hdiv, ?_⟩
    rw [hbeq, hnm_dm]
  have hmw : m.winner.getD 0 = w := by rw [hw]; rfl
  intro x hx hxid
  rw [hstate, applyWrites_eq_map] at hx
  rcases List.mem_map.1 hx with ⟨y, hy, hxy⟩
  have hyid : y.id = dm.id := by rw [← hxid, ← hxy, applyRow_id]
  constructor
  · intro hpar
    have huniqA : ∀ b ∈ wsl.reverse,
        (fun v => decide (v.dest = dm.id ∧ v.pos = 0)) b = true → b = wA := by
      intro b hb hpb
      have hpb' : b.dest = dm.id ∧ b.pos = 0 := by simpa using hpb
      rcases hcore b (List.mem_reverse.1 hb) hpb'.1 with ⟨m', hm'_ms, hm'r, hm'div, hbeq⟩
      have hm'par : m'.matchIndex % 2 = 0 := by
        have hbpos : b.pos = m'.matchIndex % 2 := by rw [hbeq]
        rw [← hbpos, hpb'.2]
      have hm'idx : m'.matchIndex = m.matchIndex := by omega
      have hm'_m : m' = m := keyinj hm'_ms hm_ms (by unfold bkey; rw [hm'r, hm'idx])
      rw [hbeq, hm'_m, hmw, hwA, hpar]
    have hlastA : lastA wsl dm.id = some w := by
      unfold lastA
      rw [find?_eq_some_of_mem_unique (List.mem_reverse.2 hwA_ws)
        (decide_eq_true ⟨rfl, hpar⟩) huniqA]
      rfl
    rw [← hxy, applyRow_teamA, hyid, hlastA]
    rfl
  · intro hpar
    have hpar1 : m.matchIndex % 2 = 1 := by omega
    have huniqB : ∀ b ∈ wsl.reverse,
        (fun v => decide (v.dest = dm.id ∧ v.pos ≠ 0)) b = true → b = wA := by
      intro b hb hpb
      have hpb' : b.dest = dm.id ∧ b.pos ≠ 0 := by simpa using hpb
      rcases hcore b (List.mem_reverse.1 hb) hpb'.1 with ⟨m', hm'_ms, hm'r, hm'div, hbeq⟩
      have hbpos : b.pos = m'.matchIndex % 2 := by rw [hbeq]
      have hm'par : m'.matchIndex % 2 = 1 := by
        have h2 := hpb'.2
        rw [hbpos] at h2
        omega
      have hm'idx : m'.matchIndex = m.matchIndex := by omega
      have hm'_m : m' = m := keyinj hm'_ms hm_ms (by unfold bkey; rw [hm'r, hm'idx])
      rw [hbeq, hm'_m, hmw, hwA, hpar1]
    have hlastB : lastB wsl dm.id = some w := by
      unfold lastB
      rw [find?_eq_some_of_mem_unique (List.mem_reverse.2 hwA_ws)
        (decide_eq_true ⟨rfl, hpar⟩) huniqB]
      rfl
    rw [← hxy, applyRow_teamB, hyid, hlastB]
    rfl

/-- Witness for claim C1 on a concrete 4-slot bracket: round-0 match 0 is
won by team 1; after propagation the round-1 match (id 2) holds team 1 in
slot A. -/
theorem claim_C1_winner_slot_routing_witness :
    ((propagate_winner [⟨0, 0, 0, some 1, some 2, some 1⟩,
        ⟨1, 0, 1, some 3, some 4, none⟩, ⟨2, 1, 0, none, none, none⟩]).state.getD 2
          ⟨0, 0, 0, none, none, none⟩).teamA = some 1 :=
  (claim_C1_winner_slot_routing
    [⟨0, 0, 0, some 1, some 2, some 1⟩, ⟨1, 0, 1, some 3, some 4, none⟩,
      ⟨2, 1, 0, none, none, none⟩]
    ⟨0, 0, 0, some 1, some 2, some 1⟩ ⟨2, 1, 0, none, none, none⟩ 1
    (by unfold nodupIds; decide) (by unfold nodupKeys; decide)
    (by unfold contiguousRounds; decide) (by decide) (by decide) rfl (by decide)
    (by decide) rfl rfl
    ((propagate_winner [⟨0, 0, 0, some 1, some 2, some 1⟩,
        ⟨1, 0, 1, some 3, some 4, none⟩, ⟨2, 1, 0, none, none, none⟩]).state.getD 2
          ⟨0, 0, 0, none, none, none⟩)
    (by decide) (by decide)).1 (by decide)

/-- Claim C6: with exactly 2 teams the single round-0 match is also the
final; recording its winner through the callback immediately propagates,
declares that team champion and marks the tournament finished. -/
theorem claim_C6_two_team_final (a b : Nat) (teams : List Nat) (side : String)
    (ha : a ≠ 0) (hb : b ≠ 0) (hat : a ∈ teams) (hbt : b ∈ teams)
    (hside : side = "A" ∨ side = "B") :
    generate_bracket [a, b] = [⟨0, 0, 0, some a, some b, none⟩]
    ∧ (winner_callback (generate_bracket [a, b]) teams 0 side).error = none
    ∧ (winner_callback (generate_bracket [a, b]) teams 0 side).champion
        = some (if side = "A" then a else b)
    ∧ tournamentFinished teams
        (winner_callback (generate_bracket [a, b]) teams 0 side).champion = true := by
  rcases hside with hs | hs <;> subst hs
  · refine ⟨rfl, ?_, ?_, ?_⟩ <;>
      simp [winner_callback, generate_bracket, genMatches, recordAndPropagate, truthy, ha, hat,
        propagate_winner, sortMatches, List.insertionSort, List.orderedInsert, dictOf,
        dictInsert, maxRoundOf, sweep, applyWrites, finalChampion, tournamentFinished]
  · refine ⟨rfl, ?_, ?_, ?_⟩ <;>
      simp [winner_callback, generate_bracket, genMatches, recordAndPropagate, truthy, hb, hbt,
        propagate_winner, sortMatches, List.insertionSort, List.orderedInsert, dictOf,
        dictInsert, maxRoundOf, sweep, applyWrites, finalChampion, tournamentFinished]

/-- Witness for claim C6: teams 1 and 2, side A recorded, champion team 1. -/
theorem claim_C6_two_team_final_witness :
    (winner_callback (generate_bracket [1, 2]) [1, 2] 0 "A").champion = some 1 := by
  have h := (claim_C6_two_team_final 1 2 [1, 2] "A" (by decide) (by decide) (by decide)
    (by decide) (Or.inl rfl)).2.2.1
  simpa using h

/-- Claim C9: the propagation sweep never writes any match's winner and
never modifies any round-0 match; each row keeps its id, round index,
match index and winner, and rows of round 0 are byte-for-byte unchanged —
only `teamA`/`teamB` of rounds 1 and above can differ.  Stated for tables
with distinct row ids (the primary key). -/
theorem claim_C9_propagate_frame (s : List BMatch) (hids : nodupIds s) :
    (propagate_winner s).state.length = s.length
    ∧ ∀ i, i < s.length →
      ((propagate_winner s).state.getD i ⟨0, 0, 0, none, none, none⟩).id
          = (s.getD i ⟨0, 0, 0, none, none, none⟩).id
      ∧ ((propagate_winner s).state.getD i ⟨0, 0, 0, none, none, none⟩).roundIndex
          = (s.getD i ⟨0, 0, 0, none, none, none⟩).roundIndex
      ∧ ((propagate_winner s).state.getD i ⟨0, 0, 0, none, none, none⟩).matchIndex
          = (s.getD i ⟨0, 0, 0, none, none, none⟩).matchIndex
      ∧ ((propagate_winner s).state.getD i ⟨0, 0, 0, none, none, none⟩).winner
          = (s.getD i ⟨0, 0, 0, none, none, none⟩).winner
      ∧ ((s.getD i ⟨0, 0, 0, none, none, none⟩).roundIndex = 0 →
          (propagate_winner s).state.getD i ⟨0, 0, 0, none, none, none⟩
            = s.getD i ⟨0, 0, 0, none, none, none⟩) := by
  by_cases hs : (sortMatches s).isEmpty = true
  · have hnil : s = [] := sortMatches_eq_nil_iff.1 (List.isEmpty_iff.1 hs)
    subst hnil
    exact ⟨rfl, fun i hi => absurd hi (by simp)⟩
  · have h1 : (propagate_winner s).state = s.map (applyRow
        (sweep (dictOf (sortMatches s)) (maxRoundOf (dictOf (sortMatches s)))).1) := by
      rw [propagate_state_eq hs, applyWrites_eq_map]
    set ws := (sweep (dictOf (sortMatches s)) (maxRoundOf (dictOf (sortMatches s)))).1 with hws
    constructor
    · rw [h1, List.length_map]
    · intro i hi
      have hget : (propagate_winner s).state.getD i ⟨0, 0, 0, none, none, none⟩
          = applyRow ws (s.getD i ⟨0, 0, 0, none, none, none⟩) := by
        rw [h1, getD_map_lt _ hi]
      set y := s.getD i ⟨0, 0, 0, none, none, none⟩ with hy
      refine ⟨by rw [hget, applyRow_id], by rw [hget, applyRow_roundIndex],
        by rw [hget, applyRow_matchIndex], by rw [hget, applyRow_winner], ?_⟩
      intro hy0
      rw [hget]
      apply applyRow_untouched
      intro w hw hcid
      rcases sweep_dest hw with ⟨nm, hnm, hdest, hr1⟩
      have hnm_s : nm ∈ s := mem_sortMatches.1 (mem_of_mem_dictOf hnm)
      have hy_s : y ∈ s := getD_mem_of_lt hi _
      have hnmy : nm = y := List.inj_on_of_nodup_map hids hnm_s hy_s (by rw [← hdest, hcid])
      rw [hnmy] at hr1
      omega

/-- Witness for claim C9 on a concrete table — one decided round-0 match and
an empty round-1 final: the length is preserved, the round-0 row is
completely unchanged, and the round-1 row keeps its winner. -/
theorem claim_C9_propagate_frame_witness :
    (propagate_winner [⟨0, 0, 0, some 1, some 2, some 1⟩,
        ⟨1, 1, 0, none, none, none⟩]).state.length
      = ([⟨0, 0, 0, some 1, some 2, some 1⟩, ⟨1, 1, 0, none, none, none⟩] : List BMatch).length
    ∧ (propagate_winner [⟨0, 0, 0, some 1, some 2, some 1⟩,
        ⟨1, 1, 0, none, none, none⟩]).state.getD 0 ⟨0, 0, 0, none, none, none⟩
      = ([⟨0, 0, 0, some 1, some 2, some 1⟩, ⟨1, 1, 0, none, none, none⟩] :
          List BMatch).getD 0 ⟨0, 0, 0, none, none, none⟩
    ∧ ((propagate_winner [⟨0, 0, 0, some 1, some 2, some 1⟩,
        ⟨1, 1, 0, none, none, none⟩]).state.getD 1 ⟨0, 0, 0, none, none, none⟩).winner
      = (([⟨0, 0, 0, some 1, some 2, some 1⟩, ⟨1, 1, 0, none, none, none⟩] :
          List BMatch).getD 1 ⟨0, 0, 0, none, none, none⟩).winner := by
  have h := claim_C9_propagate_frame
    [⟨0, 0, 0, some 1, some 2, some 1⟩, ⟨1, 1, 0, none, none, none⟩]
    (by unfold nodupIds; decide)
  exact ⟨h.1, (h.2 0 (by decide)).2.2.2.2 (by decide), (h.2 1 (by decide)).2.2.2.1⟩

/-- Claim C10: selecting a side whose team slot is absent in the referenced
match makes the callback fail with the invalid-selection message, leaving
every match untouched; consequently any winner that the callback does
record equals the match's `teamA` or `teamB`. -/
theorem claim_C10_invalid_selection (s : List BMatch) (teams : List Nat) (mid : Nat)
    (side : String) (m : BMatch) (hm : s.find? (fun x => decide (x.id = mid)) = some m) :
    (((side = "A" ∧ m.teamA = none) ∨ (side = "B" ∧ m.teamB = none)) →
        (winner_callback s teams mid side).error = some "Invalid selection"
        ∧ (winner_callback s teams mid side).state = s)
    ∧ ((winner_callback s teams mid side).error = none →
        ∀ x ∈ (winner_callback s teams mid side).state, x.id = mid →
          x.winner = m.teamA ∨ x.winner = m.teamB) := by
  have hcb : winner_callback s teams mid side =
      (if side = "A" ∧ truthy m.teamA then recordAndPropagate s teams mid (m.teamA.getD 0)
       else if side = "B" ∧ truthy m.teamB then recordAndPropagate s teams mid (m.teamB.getD 0)
       else ⟨s, none, false, some "Invalid selection"⟩) := by
    unfold winner_callback
    rw [hm]
  constructor
  · rintro (⟨hA, hnone⟩ | ⟨hB, hnone⟩)
    · rw [hcb, if_neg (fun hc => by rw [hnone] at hc; simp [truthy] at hc),
        if_neg (fun hc => by rw [hA] at hc; exact absurd hc.1 (by decide))]
      exact ⟨rfl, rfl⟩
    · rw [hcb, if_neg (fun hc => by rw [hB] at hc; exact absurd hc.1 (by decide)),
        if_neg (fun hc => by rw [hnone] at hc; simp [truthy] at hc)]
      exact ⟨rfl, rfl⟩
  · intro herr x hx hxid
    rw [hcb] at herr hx
    by_cases h1 : side = "A" ∧ truthy m.teamA
    · rw [if_pos h1] at herr hx
      unfold recordAndPropagate at herr hx
      by_cases h2 : m.teamA.getD 0 ∈ teams
      · rw [if_pos h2] at hx
        dsimp only at hx
        rcases propagate_state_keyFixed
            (s.map (fun z => if z.id = mid then { z with winner := some (m.teamA.getD 0) }
              else z)) with ⟨g, hg, hst⟩
        rw [hst] at hx
        rcases List.mem_map.1 hx with ⟨y, hy, hxy⟩
        rcases List.mem_map.1 hy with ⟨z, hz, hyz⟩
        left
        have hxw : x.winner = y.winner := by rw [← hxy, (hg y).2.2.2]
        have hxid' : y.id = x.id := by rw [← hxy, (hg y).1]
        have hyid : y.id = z.id := by
          rw [← hyz]
          by_cases hzid : z.id = mid <;> simp [hzid]
        have hzid : z.id = mid := by rw [← hyid, hxid', hxid]
        have hyw : y.winner = some (m.teamA.getD 0) := by
          rw [← hyz]
          simp [hzid]
        exact hxw.trans (hyw.trans (truthy_eq_some h1.2).symm)
      · rw [if_neg h2] at herr
        simp at herr
    · rw [if_neg h1] at herr hx
      by_cases h1' : side = "B" ∧ truthy m.teamB
      · rw [if_pos h1'] at herr hx
        unfold recordAndPropagate at herr hx
        by_cases h2 : m.teamB.getD 0 ∈ teams
        · rw [if_pos h2] at hx
          dsimp only at hx
          rcases propagate_state_keyFixed
              (s.map (fun z => if z.id = mid then { z with winner := some (m.teamB.getD 0) }
                else z)) with ⟨g, hg, hst⟩
          rw [hst] at hx
          rcases List.mem_map.1 hx with ⟨y, hy, hxy⟩
          rcases List.mem_map.1 hy with ⟨z, hz, hyz⟩
          right
          have hxw : x.winner = y.winner := by rw [← hxy, (hg y).2.2.2]
          have hxid' : y.id = x.id := by rw [← hxy, (hg y).1]
          have hyid : y.id = z.id := by
            rw [← hyz]
            by_cases hzid : z.id = mid <;> simp [hzid]
          have hzid : z.id = mid := by rw [← hyid, hxid', hxid]
          have hyw : y.winner = some (m.teamB.getD 0) := by
            rw [← hyz]
            simp [hzid]
          exact hxw.trans (hyw.trans (truthy_eq_some h1'.2).symm)
        · rw [if_neg h2] at herr
          simp at herr
      · rw [if_neg h1'] at herr
        simp at herr

/-- Witness for claim C10: selecting side B of a bye match (absent `teamB`)
is refused and the table is unchanged. -/
theorem claim_C10_invalid_selection_witness :
    (winner_callback [⟨0, 0, 0, some 5, none, none⟩] [5] 0 "B").error
        = some "Invalid selection"
    ∧ (winner_callback [⟨0, 0, 0, some 5, none, none⟩] [5] 0 "B").state
        = [⟨0, 0, 0, some 5, none, none⟩] :=
  (claim_C10_invalid_selection [⟨0, 0, 0, some 5, none, none⟩] [5] 0 "B"
    ⟨0, 0, 0, some 5, none, none⟩ rfl).1 (Or.inr ⟨rfl, rfl⟩)
